import Mathlib

set_option maxHeartbeats 1000000

namespace CLG

/-!
Shallow embedding of the `Ruburable/cover_letter_generator` repository
(`src/cover_letter_generator.py` and `src/job_scraper.py`).

Python strings are modelled as Lean `String` / `List Char`.  Python's
Unicode-aware `str.lower`, `str.isalnum` and `str.strip` are modelled by
their ASCII behaviour (`Char.toLower`, `Char.isAlphanum`, an ASCII
whitespace set), which is what the repository exercises.
-/

/-- ASCII model of the whitespace set stripped by Python `str.strip()`. -/
def isPySpace (c : Char) : Bool :=
  c == ' ' || c == '\t' || c == '\n' || c == '\x0b' || c == '\x0c' || c == '\r'

/-- Python-style two-sided trimming: drop characters satisfying `p` from
both ends of the list (`str.strip` / `str.strip('-')`). -/
def stripWhile (p : Char → Bool) (l : List Char) : List Char :=
  ((l.dropWhile p).reverse.dropWhile p).reverse

/-- Model of Python `str.strip()` (ASCII whitespace). -/
def pyStrip (l : List Char) : List Char := stripWhile isPySpace l

/-- Model of Python `text.split('\n')` (keeps empty pieces, returns one
more piece than there are separators). -/
def splitNl : List Char → List (List Char)
  | [] => [[]]
  | c :: rest =>
    if c = '\n' then [] :: splitNl rest
    else
      match splitNl rest with
      | [] => [[c]]
      | l :: ls => (c :: l) :: ls

/-- Model of Python `'\n'.join(lines)`. -/
def joinNl : List (List Char) → List Char
  | [] => []
  | [l] => l
  | l :: ls => l ++ '\n' :: joinNl ls

/-! ## `CoverLetterGenerator._sanitize_filename_component`
(src/cover_letter_generator.py lines 178-201). -/

/-- Characters kept by the sanitizer loop
(`char.isalnum() or char == '-'`, `isalnum` modelled on ASCII). -/
def keepChar (c : Char) : Bool := c.isAlphanum || c == '-'

/-- The `.replace(' ', '-')` step of the sanitizer, per character. -/
def spaceToHyphen (c : Char) : Char := if c = ' ' then '-' else c

/-- Python `'--' in s`: the list contains two adjacent hyphens. -/
def hasDD : List Char → Bool
  | [] => false
  | [_] => false
  | c :: d :: rest => (c == '-' && d == '-') || hasDD (d :: rest)

/-- One pass of Python `s.replace('--', '-')`: left-to-right,
non-overlapping replacement of every `--` by `-`. -/
def pyReplace2 : List Char → List Char
  | [] => []
  | [c] => [c]
  | c :: d :: rest =>
    if c = '-' ∧ d = '-' then '-' :: pyReplace2 rest
    else c :: pyReplace2 (d :: rest)

theorem pyReplace2_length_le (l : List Char) : (pyReplace2 l).length ≤ l.length := by
  induction l using pyReplace2.induct with
  | case1 => simp [pyReplace2]
  | case2 c => simp [pyReplace2]
  | case3 c d rest hcd ih =>
    simp only [pyReplace2, if_pos hcd, List.length_cons]
    omega
  | case4 c d rest hcd ih =>
    simp only [pyReplace2, if_neg hcd, List.length_cons] at ih ⊢
    omega

theorem pyReplace2_length_lt (l : List Char) (h : hasDD l = true) :
    (pyReplace2 l).length < l.length := by
  induction l using pyReplace2.induct with
  | case1 => simp [hasDD] at h
  | case2 c => simp [hasDD] at h
  | case3 c d rest hcd ih =>
    have := pyReplace2_length_le rest
    simp only [pyReplace2, if_pos hcd, List.length_cons]
    omega
  | case4 c d rest hcd ih =>
    have hdd : hasDD (d :: rest) = true := by
      have h' := h
      simp only [hasDD, Bool.or_eq_true, Bool.and_eq_true, beq_iff_eq] at h'
      rcases h' with h1 | h1
      · exact absurd h1 hcd
      · exact h1
    have := ih hdd
    simp only [pyReplace2, if_neg hcd, List.length_cons] at this ⊢
    omega

/-- The `while '--' in filename:` loop of the sanitizer: repeat the
single-pass replacement until no double hyphen remains. -/
def collapseHyphens (l : List Char) : List Char :=
  if h : hasDD l = true then collapseHyphens (pyReplace2 l) else l
termination_by l.length
decreasing_by exact pyReplace2_length_lt l h

/-- Spec-side formulation of "consecutive hyphens collapsed to one": a
hyphen immediately followed by another hyphen is dropped.  Used to compare
the spec's wording with the code's replace-until-fixed loop. -/
def specCollapse : List Char → List Char
  | [] => []
  | [c] => [c]
  | c :: d :: rest =>
    if c = '-' ∧ d = '-' then specCollapse (d :: rest)
    else c :: specCollapse (d :: rest)

/-- The `filename.strip('-')` step. -/
def stripHyphens (l : List Char) : List Char := stripWhile (· == '-') l

/-- Embedding of `CoverLetterGenerator._sanitize_filename_component`. -/
def sanitize_filename_component (text : String) : String :=
  if text = "" ∨ text = "Unknown" then "Unknown"
  else
    let lowered := (text.data.map Char.toLower).map spaceToHyphen
    let filename := lowered.filter keepChar
    let collapsed := collapseHyphens filename
    let stripped := stripHyphens collapsed
    if stripped = [] then "Unknown" else String.mk stripped

/-- The spec's transformation steps on the character list: lowercase,
spaces to hyphens, drop characters neither alphanumeric nor hyphen,
collapse consecutive hyphens to one, trim hyphens at both ends. -/
def sanitizeCore (l : List Char) : List Char :=
  stripWhile (· == '-') (specCollapse (((l.map Char.toLower).map spaceToHyphen).filter keepChar))

/-- The sanitization pipeline as the spec describes it, amended where the
code forces it: the empty/`"Unknown"` early return and the empty-result
default produce `"Unknown"` (capital U), not `"unknown"`; hyphen collapse
is expressed as run collapse (`specCollapse`). -/
def specSanitizeAmended (text : String) : String :=
  if text = "" ∨ text = "Unknown" then "Unknown"
  else if sanitizeCore text.data = [] then "Unknown"
  else String.mk (sanitizeCore text.data)

/-- A non-empty all-hyphen string. -/
def hyphenOnly (s : String) : Bool := !s.data.isEmpty && s.data.all (· == '-')

/-! ## `CoverLetterGenerator._extract_cv_text`
(src/cover_letter_generator.py lines 100-122). -/

/-- The markup-directive openers skipped by `_extract_cv_text`. -/
def markupStarts : List String :=
  ["\\usepackage", "\\define", "\\setmainfont", "\\geometry", "\\titleformat", "\\newcommand"]

/-- A line is kept when its stripped form does not start with a markup
directive, is non-empty, and does not start with `%`. -/
def keepLine (line : List Char) : Bool :=
  let t := pyStrip line
  !(markupStarts.any (fun p => p.data.isPrefixOf t)) && !t.isEmpty && !(['%'].isPrefixOf t)

/-- Embedding of `CoverLetterGenerator._extract_cv_text` as a function of
the loaded CV content. -/
def extract_cv_text (cv : String) : String :=
  String.mk (joinNl ((splitNl cv.data).filter keepLine))

/-! ## `JobScraper._clean_text` (src/job_scraper.py lines 28-32). -/

/-- The lines produced by `_clean_text`'s comprehension
(`[line.strip() for line in lines if line.strip()]`). -/
def cleanedLinesOf (s : String) : List (List Char) :=
  ((splitNl s.data).filter (fun l => !(pyStrip l).isEmpty)).map pyStrip

/-- Embedding of `JobScraper._clean_text`. -/
def clean_text (s : String) : String :=
  String.mk (joinNl (cleanedLinesOf s))

/-! ## `JobScraper.scrape_url` content extraction
(src/job_scraper.py lines 59-100).

A parsed document (after decomposing script/style/nav/header/footer) is
modelled by what the extraction logic observes of it: `soup.find(**sel)`
for the attribute selectors, `soup.find('main')` / `soup.find('article')`,
`soup.body`, and `soup.get_text()`.  An element only matters through its
`get_text()`, so a found element is modelled directly as its text (`none`
meaning no element was found); found elements are treated as truthy. -/

/-- The attribute selectors used by `scrape_url`. -/
inductive SAttr where
  | cls (v : String)
  | idSel (v : String)
  | role (v : String)
deriving DecidableEq

/-- The ordered selector list of `scrape_url`. -/
def selectors : List SAttr :=
  [.cls "job-description", .cls "job-details", .cls "posting-description",
   .idSel "job-description", .role "main", .cls "description", .cls "content"]

/-- Observable behaviour of a parsed, decomposed HTML document. -/
structure Soup where
  find : SAttr → Option String
  mainTag : Option String
  articleTag : Option String
  bodyTag : Option String
  docText : String

/-- The selector loop: take the first selector whose `find` succeeds and
`break` with that element's text. -/
def firstMatch : List SAttr → (SAttr → Option String) → Option String
  | [], _ => none
  | s :: rest, f =>
    match f s with
    | some t => some t
    | none => firstMatch rest f

/-- The `if not content:` fallback: `soup.find('main') or
soup.find('article')`, else `soup.body.get_text() if soup.body else
soup.get_text()`. -/
def fallbackContent (s : Soup) : String :=
  match s.mainTag with
  | some t => t
  | none =>
    match s.articleTag with
    | some t => t
    | none =>
      match s.bodyTag with
      | some t => t
      | none => s.docText

/-- Content selection of `scrape_url`: the selector loop's text if it is
non-empty (Python truthiness of `content`), else the fallback chain. -/
def chooseContent (s : Soup) : String :=
  match firstMatch selectors s.find with
  | some t => if t = "" then fallbackContent s else t
  | none => fallbackContent s

/-- The scraped content as saved: cleaned text with the provenance line. -/
def scrape_content (url : String) (s : Soup) : String :=
  "Source URL: " ++ url ++ "\n\n" ++ clean_text (chooseContent s)

/-- A document with a `job-description`-class element whose text is empty,
a `main`-role element, no `main`/`article` tag, and a body. -/
def soupA : Soup where
  find := fun a =>
    if a = SAttr.cls "job-description" then some ""
    else if a = SAttr.role "main" then some "MAINTEXT" else none
  mainTag := none
  articleTag := none
  bodyTag := some "BODYTEXT"
  docText := "DOC"

/-- A document with a non-empty `job-description`-class element and a
`main`-role element. -/
def soupB : Soup where
  find := fun a =>
    if a = SAttr.cls "job-description" then some "JD TEXT"
    else if a = SAttr.role "main" then some "MAINTEXT" else none
  mainTag := some "MAINTEXT"
  articleTag := none
  bodyTag := none
  docText := "DOC"

/-- A document matched by no selector, with no `main`/`article` tag and a
body. -/
def soupC : Soup where
  find := fun _ => none
  mainTag := none
  articleTag := none
  bodyTag := some "BODY"
  docText := "DOC"

/-! ## `CoverLetterGenerator._extract_job_info`
(src/cover_letter_generator.py lines 124-176).

The backend call is modelled as an `Option String` (`none`: the request
raised or failed, `some raw`: the response text already read from the
JSON envelope).  Python `json.loads` plus the `info.get` accesses are
modelled by a `parse` function returning `none` when the stripped text is
not a JSON object and otherwise the object's two optional fields. -/

/-- The two fields read from the parsed JSON object; `none` models a
missing key. -/
structure JobInfoObj where
  company : Option String
  position : Option String

/-- Python `s.replace(pat, rep)`: left-to-right, non-overlapping (used
with non-empty `pat`). -/
def replAll (pat rep : List Char) : List Char → List Char
  | [] => []
  | c :: rest =>
    if pat.isPrefixOf (c :: rest) then
      rep ++ replAll pat rep (rest.drop (pat.length - 1))
    else c :: replAll pat rep rest
termination_by l => l.length
decreasing_by
  · simp only [List.length_cons]
    have := List.length_drop (pat.length - 1) rest
    omega
  · simp

/-- The markdown code-fence stripping applied to a response before
parsing: `.strip().replace('```json', '').replace('```', '').strip()`. -/
def stripFences (raw : List Char) : List Char :=
  pyStrip (replAll "```".data [] (replAll "```json".data [] (pyStrip raw)))

/-- Embedding of `CoverLetterGenerator._extract_job_info`'s handling of
the backend response (the `try`/`except` body after the request). -/
def extract_job_info (callResult : Option String)
    (parse : String → Option JobInfoObj) : String × String :=
  match callResult with
  | none => ("Unknown", "Unknown")
  | some raw =>
    match parse (String.mk (stripFences raw.data)) with
    | none => ("Unknown", "Unknown")
    | some o => (o.company.getD "Unknown", o.position.getD "Unknown")

/-! ## `CoverLetterGenerator.batch_process`
(src/cover_letter_generator.py lines 317-408).

One input file is modelled by what the per-item chain observes: the
outcome of reading the source (`readResult`), the metadata the (total,
per `_extract_job_info`) extraction returns, and the outcome of
generation-plus-write (`genResult`).  The archive directory is modelled
as the list of file names present in `bin/`. -/

structure BatchItem where
  path : String
  readResult : Except String String
  company : String
  position : String
  genResult : Except String String

def isOkB : Except String (String × Option String) → Bool
  | .ok _ => true
  | .error _ => false

/-- The archive filename `{company}-{position}-{date}.txt` built from the
sanitized metadata. -/
def newFilenameOf (date : String) (it : BatchItem) : String :=
  sanitize_filename_component it.company ++ "-" ++
    sanitize_filename_component it.position ++ "-" ++ date ++ ".txt"

/-- The per-item `try` body: read, optionally compute the archive name,
generate and write.  Any step's failure is the item's failure. -/
def processItem (mtb : Bool) (date : String) (it : BatchItem) :
    Except String (String × Option String) :=
  match it.readResult with
  | .error e => .error e
  | .ok _ =>
    match it.genResult with
    | .error e => .error e
    | .ok out => .ok (out, if mtb then some (newFilenameOf date it) else none)

/-- State accumulated by the batch loop: `generated_files`,
`files_to_move`, and the failure messages printed at item boundaries. -/
structure LoopResult where
  generated : List String
  toMove : List (String × String)
  failLog : List String

def batchStep (mtb : Bool) (date : String) (r : LoopResult) (it : BatchItem) : LoopResult :=
  match processItem mtb date it with
  | .ok (out, nf) =>
    { generated := r.generated ++ [out]
      toMove := r.toMove ++ (match nf with | some f => [(it.path, f)] | none => [])
      failLog := r.failLog }
  | .error e => { r with failLog := r.failLog ++ [e] }

/-- The `for i, job_file in enumerate(job_files, 1):` loop. -/
def batchLoop (mtb : Bool) (date : String) (items : List BatchItem) : LoopResult :=
  items.foldl (batchStep mtb date) ⟨[], [], []⟩

/-- The aggregate report line
`f"... {len(generated_files)}/{len(job_files)} successful"`. -/
def batchReport (mtb : Bool) (date : String) (items : List BatchItem) : Nat × Nat :=
  ((batchLoop mtb date items).generated.length, items.length)

/-- Index (from the left) of the last `'.'` usable as an extension
separator, following CPython `os.path.splitext`. -/
def lastDotIdx (cs : List Char) : Option Nat :=
  match cs.reverse.findIdx? (· == '.') with
  | none => none
  | some k => some (cs.length - 1 - k)

/-- Model of `os.path.splitext` on a bare file name. -/
def pySplitext (cs : List Char) : List Char × List Char :=
  match lastDotIdx cs with
  | none => (cs, [])
  | some i => if (cs.take i).all (· == '.') then (cs, []) else (cs.take i, cs.drop i)

/-- The collision renaming `f"{base}_{timestamp}{ext}"`. -/
def addSuffix (name time : String) : String :=
  let be := pySplitext name.data
  String.mk be.1 ++ "_" ++ time ++ String.mk be.2

/-- Result of the move loop: archive contents, the performed moves
`(source, destination)`, and whether any move replaced an existing
archive file (`shutil.move` onto an existing path). -/
structure MoveResult where
  fs : List String
  performed : List (String × String)
  overwrote : Bool

/-- The `for source_file, new_filename in files_to_move:` loop.  `fs` is
the set of names in `bin/`; `times` supplies the `HHMMSS` timestamp each
iteration reads from the clock. -/
def movePhase : List String → List (String × String) → List String → MoveResult
  | fs, [], _ => ⟨fs, [], false⟩
  | fs, (src, nf) :: rest, times =>
    let t := times.headD "000000"
    let dest := if fs.contains nf then addSuffix nf t else nf
    let ow := fs.contains dest
    let r := movePhase (if fs.contains dest then fs else fs ++ [dest]) rest times.tail
    ⟨r.fs, (src, dest) :: r.performed, ow || r.overwrote⟩

/-- Events of one batch run, in program order. -/
inductive BEvent where
  | gen (path : String) (ok : Bool)
  | move (src dest : String)
deriving DecidableEq

def isMoveEvent : BEvent → Bool
  | .move _ _ => true
  | _ => false

/-- The generation-pass events, one per input file, in loop order. -/
def itemEvents (mtb : Bool) (date : String) (items : List BatchItem) : List BEvent :=
  items.foldl (fun acc it => acc ++ [BEvent.gen it.path (isOkB (processItem mtb date it))]) []

/-- The full trace of `batch_process`: the per-item loop runs to
completion, then the move loop runs over `files_to_move`. -/
def batchTrace (mtb : Bool) (date : String) (fs0 times : List String)
    (items : List BatchItem) : List BEvent :=
  itemEvents mtb date items ++
    (movePhase fs0 (batchLoop mtb date items).toMove times).performed.map
      (fun p => BEvent.move p.1 p.2)

/-- Successful outputs, in order (`generated_files`). -/
def gensOf (mtb : Bool) (date : String) (items : List BatchItem) : List String :=
  items.filterMap (fun it =>
    match processItem mtb date it with
    | .ok (out, _) => some out
    | .error _ => none)

/-- Failure messages, in order of occurrence. -/
def failsOf (mtb : Bool) (date : String) (items : List BatchItem) : List String :=
  items.filterMap (fun it =>
    match processItem mtb date it with
    | .ok _ => none
    | .error e => some e)

/-- The `files_to_move` entries contributed by each successful item. -/
def movesOf (mtb : Bool) (date : String) (items : List BatchItem) : List (String × String) :=
  items.filterMap (fun it =>
    match processItem mtb date it with
    | .ok (_, some nf) => some (it.path, nf)
    | _ => none)

/-- A concrete batch item whose read and generation both succeed. -/
def okItem : BatchItem :=
  ⟨"job1.txt", .ok "posting text", "Unknown", "Unknown", .ok "output/cover_letter_job1.txt"⟩

/-! ## Lemmas: two-sided trimming -/

theorem dropWhile_head_false {p : Char → Bool} {l : List Char} {c : Char} {r : List Char}
    (h : l.dropWhile p = c :: r) : p c = false := by
  have h2 := List.head?_dropWhile_not p l
  rw [h] at h2
  simpa using h2

theorem dropWhile_eq_self_of_head {p : Char → Bool} {l : List Char}
    (h : ∀ c r, l = c :: r → p c = false) : l.dropWhile p = l := by
  cases l with
  | nil => rfl
  | cons c r =>
    have hc := h c r rfl
    simp [List.dropWhile_cons, hc]

theorem stripWhile_isPrefix (p : Char → Bool) (l : List Char) :
    stripWhile p l <+: l.dropWhile p := by
  unfold stripWhile
  have h := List.dropWhile_suffix (l := (l.dropWhile p).reverse) p
  have h2 := List.reverse_prefix.2 h
  rwa [List.reverse_reverse] at h2

theorem stripWhile_head_false {p : Char → Bool} {l : List Char} {c : Char} {r : List Char}
    (h : stripWhile p l = c :: r) : p c = false := by
  obtain ⟨t, ht⟩ := stripWhile_isPrefix p l
  rw [h] at ht
  exact dropWhile_head_false (l := l) ht.symm

theorem stripWhile_last_false {p : Char → Bool} {l : List Char} {c : Char}
    (h : (stripWhile p l).getLast? = some c) : p c = false := by
  have hrev : (stripWhile p l).reverse = (l.dropWhile p).reverse.dropWhile p := by
    unfold stripWhile
    rw [List.reverse_reverse]
  rw [List.getLast?_eq_head?_reverse, hrev] at h
  have h2 := List.head?_dropWhile_not p (l.dropWhile p).reverse
  revert h2
  rw [h]
  intro h2
  exact h2

theorem stripWhile_eq_self {p : Char → Bool} {l : List Char}
    (hh : ∀ c r, l = c :: r → p c = false)
    (hl : ∀ c, l.getLast? = some c → p c = false) : stripWhile p l = l := by
  unfold stripWhile
  rw [dropWhile_eq_self_of_head hh]
  have h2 : l.reverse.dropWhile p = l.reverse := by
    apply dropWhile_eq_self_of_head
    intro c r hcr
    apply hl
    rw [List.getLast?_eq_head?_reverse, hcr]
    rfl
  rw [h2, List.reverse_reverse]

theorem stripWhile_idem (p : Char → Bool) (l : List Char) :
    stripWhile p (stripWhile p l) = stripWhile p l := by
  apply stripWhile_eq_self
  · intro c r h
    exact stripWhile_head_false h
  · intro c h
    exact stripWhile_last_false h

theorem stripWhile_isInfix (p : Char → Bool) (l : List Char) : stripWhile p l <:+: l :=
  (stripWhile_isPrefix p l).isInfix.trans (List.dropWhile_suffix p).isInfix

/-! ## Lemmas: splitting and joining on newlines -/

theorem splitNl_ne_nil (l : List Char) : splitNl l ≠ [] := by
  cases l with
  | nil => simp [splitNl]
  | cons c rest =>
    simp only [splitNl]
    split
    · simp
    · split <;> simp

theorem mem_splitNl_no_nl : ∀ (l : List Char), ∀ x ∈ splitNl l, '\n' ∉ x := by
  intro l
  induction l with
  | nil =>
    intro x hx
    simp only [splitNl, List.mem_singleton] at hx
    simp [hx]
  | cons c rest ih =>
    intro x hx
    simp only [splitNl] at hx
    by_cases h : c = '\n'
    · rw [if_pos h] at hx
      rcases List.mem_cons.1 hx with h1 | h1
      · simp [h1]
      · exact ih x h1
    · rw [if_neg h] at hx
      cases hsr : splitNl rest with
      | nil => exact absurd hsr (splitNl_ne_nil rest)
      | cons hd tl =>
        rw [hsr] at hx
        simp only at hx
        rcases List.mem_cons.1 hx with h1 | h1
        · subst h1
          intro hmem
          rcases List.mem_cons.1 hmem with h2 | h2
          · exact h h2.symm
          · exact ih hd (by rw [hsr]; exact List.mem_cons_self hd tl) h2
        · exact ih x (by rw [hsr]; exact List.mem_cons_of_mem hd h1)

theorem splitNl_no_nl {x : List Char} (h : '\n' ∉ x) : splitNl x = [x] := by
  induction x with
  | nil => rfl
  | cons c r ih =>
    have hc : ¬ c = '\n' := fun e => h (e ▸ List.mem_cons_self c r)
    have hr : '\n' ∉ r := fun m => h (List.mem_cons_of_mem _ m)
    simp only [splitNl, if_neg hc, ih hr]

theorem splitNl_append_cons {x : List Char} (r : List Char) (h : '\n' ∉ x) :
    splitNl (x ++ '\n' :: r) = x :: splitNl r := by
  induction x with
  | nil => simp [splitNl]
  | cons c xs ih =>
    have hc : ¬ c = '\n' := fun e => h (e ▸ List.mem_cons_self c xs)
    have hx : '\n' ∉ xs := fun m => h (List.mem_cons_of_mem _ m)
    simp only [List.cons_append, splitNl, if_neg hc, List.append_eq]
    rw [ih hx]

theorem splitNl_joinNl : ∀ (xs : List (List Char)), xs ≠ [] →
    (∀ x ∈ xs, '\n' ∉ x) → splitNl (joinNl xs) = xs
  | [], hne, _ => absurd rfl hne
  | [x], _, h => by
    simp only [joinNl]
    exact splitNl_no_nl (h x (List.mem_singleton.2 rfl))
  | x :: y :: ys, _, h => by
    have hj : joinNl (x :: y :: ys) = x ++ '\n' :: joinNl (y :: ys) := rfl
    rw [hj, splitNl_append_cons _ (h x (List.mem_cons_self x (y :: ys)))]
    rw [splitNl_joinNl (y :: ys) (by simp) (fun a ha => h a (List.mem_cons_of_mem _ ha))]

/-! ## Lemmas: the hyphen-collapsing loop equals run collapse -/

theorem hasDD_iff_isInfix (l : List Char) : hasDD l = true ↔ ['-', '-'] <:+: l := by
  induction l using hasDD.induct with
  | case1 =>
    simp only [hasDD]
    constructor
    · intro h
      cases h
    · intro h
      have := h.sublist.length_le
      simp at this
  | case2 c =>
    simp only [hasDD]
    constructor
    · intro h
      cases h
    · intro h
      have := h.sublist.length_le
      simp at this
  | case3 c d rest ih =>
    simp only [hasDD, Bool.or_eq_true, Bool.and_eq_true, beq_iff_eq, ih,
      List.infix_cons_iff, List.cons_prefix_cons, List.nil_prefix, and_true]
    constructor
    · rintro (⟨hc, hd⟩ | h)
      · exact Or.inl ⟨hc.symm, hd.symm⟩
      · exact Or.inr h
    · rintro (⟨hc, hd⟩ | h)
      · exact Or.inl ⟨hc.symm, hd.symm⟩
      · exact Or.inr h

theorem hasDD_of_infix {u l : List Char} (h : u <:+: l) (hdd : hasDD u = true) :
    hasDD l = true :=
  (hasDD_iff_isInfix l).2 (((hasDD_iff_isInfix u).1 hdd).trans h)

theorem pyReplace2_head (d : Char) (r : List Char) :
    ∃ s, pyReplace2 (d :: r) = d :: s := by
  cases r with
  | nil => exact ⟨[], rfl⟩
  | cons e r2 =>
    by_cases h : d = '-' ∧ e = '-'
    · refine ⟨pyReplace2 r2, ?_⟩
      rw [show pyReplace2 (d :: e :: r2) = if d = '-' ∧ e = '-' then '-' :: pyReplace2 r2
            else d :: pyReplace2 (e :: r2) from rfl, if_pos h, h.1]
    · exact ⟨pyReplace2 (e :: r2), by
        rw [show pyReplace2 (d :: e :: r2) = if d = '-' ∧ e = '-' then '-' :: pyReplace2 r2
              else d :: pyReplace2 (e :: r2) from rfl, if_neg h]⟩

theorem specCollapse_head (c : Char) (r : List Char) :
    ∃ s, specCollapse (c :: r) = c :: s := by
  induction r generalizing c with
  | nil => exact ⟨[], rfl⟩
  | cons d rest ih =>
    by_cases h : c = '-' ∧ d = '-'
    · obtain ⟨s, hs⟩ := ih d
      refine ⟨s, ?_⟩
      rw [show specCollapse (c :: d :: rest) = if c = '-' ∧ d = '-' then specCollapse (d :: rest)
            else c :: specCollapse (d :: rest) from rfl, if_pos h, hs, h.1, h.2]
    · exact ⟨specCollapse (d :: rest), by
        rw [show specCollapse (c :: d :: rest) = if c = '-' ∧ d = '-' then specCollapse (d :: rest)
              else c :: specCollapse (d :: rest) from rfl, if_neg h]⟩

theorem hasDD_specCollapse (l : List Char) : hasDD (specCollapse l) = false := by
  induction l using specCollapse.induct with
  | case1 => rfl
  | case2 c => rfl
  | case3 c d rest h ih =>
    rw [show specCollapse (c :: d :: rest) = if c = '-' ∧ d = '-' then specCollapse (d :: rest)
          else c :: specCollapse (d :: rest) from rfl, if_pos h]
    exact ih
  | case4 c d rest h ih =>
    rw [show specCollapse (c :: d :: rest) = if c = '-' ∧ d = '-' then specCollapse (d :: rest)
          else c :: specCollapse (d :: rest) from rfl, if_neg h]
    obtain ⟨s, hs⟩ := specCollapse_head d rest
    rw [hs]
    have ih' : hasDD (d :: s) = false := hs ▸ ih
    have hb : (c == '-' && d == '-') = false := by
      cases hc : c == '-' <;> cases hd : d == '-' <;> simp_all [beq_iff_eq]
    simp [hasDD, hb, ih']

theorem mem_specCollapse {x : Char} : ∀ {l : List Char}, x ∈ specCollapse l → x ∈ l := by
  intro l
  induction l using specCollapse.induct with
  | case1 => exact fun h => h
  | case2 c => exact fun h => h
  | case3 c d rest h ih =>
    intro hx
    rw [show specCollapse (c :: d :: rest) = if c = '-' ∧ d = '-' then specCollapse (d :: rest)
          else c :: specCollapse (d :: rest) from rfl, if_pos h] at hx
    exact List.mem_cons_of_mem c (ih hx)
  | case4 c d rest h ih =>
    intro hx
    rw [show specCollapse (c :: d :: rest) = if c = '-' ∧ d = '-' then specCollapse (d :: rest)
          else c :: specCollapse (d :: rest) from rfl, if_neg h] at hx
    rcases List.mem_cons.1 hx with h1 | h1
    · exact h1 ▸ List.mem_cons_self c (d :: rest)
    · exact List.mem_cons_of_mem c (ih h1)

theorem specCollapse_eq_self : ∀ {l : List Char}, hasDD l = false → specCollapse l = l := by
  intro l
  induction l using specCollapse.induct with
  | case1 => intro _; rfl
  | case2 c => intro _; rfl
  | case3 c d rest h ih =>
    intro hdd
    exfalso
    simp [hasDD, h.1, h.2] at hdd
  | case4 c d rest h ih =>
    intro hdd
    have h' : hasDD (d :: rest) = false := by
      simp only [hasDD, Bool.or_eq_false_iff] at hdd
      exact hdd.2
    rw [show specCollapse (c :: d :: rest) = if c = '-' ∧ d = '-' then specCollapse (d :: rest)
          else c :: specCollapse (d :: rest) from rfl, if_neg h, ih h']

theorem specCollapse_pyReplace2 : ∀ (l : List Char),
    specCollapse (pyReplace2 l) = specCollapse l := by
  intro l
  induction l using pyReplace2.induct with
  | case1 => rfl
  | case2 c => rfl
  | case3 c d rest hcd ih =>
    obtain ⟨hc, hd⟩ := hcd
    subst hc
    subst hd
    rw [show pyReplace2 ('-' :: '-' :: rest) = if ('-' : Char) = '-' ∧ ('-' : Char) = '-'
          then '-' :: pyReplace2 rest else '-' :: pyReplace2 ('-' :: rest) from rfl,
        if_pos ⟨rfl, rfl⟩]
    rw [show specCollapse ('-' :: '-' :: rest) = if ('-' : Char) = '-' ∧ ('-' : Char) = '-'
          then specCollapse ('-' :: rest) else '-' :: specCollapse ('-' :: rest) from rfl,
        if_pos ⟨rfl, rfl⟩]
    cases hr : rest with
    | nil => rfl
    | cons e r2 =>
      obtain ⟨s, hs⟩ := pyReplace2_head e r2
      rw [hs]
      by_cases he : e = '-'
      · subst he
        rw [show specCollapse ('-' :: '-' :: s) = if ('-' : Char) = '-' ∧ ('-' : Char) = '-'
              then specCollapse ('-' :: s) else '-' :: specCollapse ('-' :: s) from rfl,
            if_pos ⟨rfl, rfl⟩]
        rw [show specCollapse ('-' :: '-' :: r2) = if ('-' : Char) = '-' ∧ ('-' : Char) = '-'
              then specCollapse ('-' :: r2) else '-' :: specCollapse ('-' :: r2) from rfl,
            if_pos ⟨rfl, rfl⟩]
        have := ih
        rw [hr, hs] at this
        exact this
      · rw [show specCollapse ('-' :: e :: s) = if ('-' : Char) = '-' ∧ e = '-'
              then specCollapse (e :: s) else '-' :: specCollapse (e :: s) from rfl,
            if_neg (fun hp => he hp.2)]
        rw [show specCollapse ('-' :: e :: r2) = if ('-' : Char) = '-' ∧ e = '-'
              then specCollapse (e :: r2) else '-' :: specCollapse (e :: r2) from rfl,
            if_neg (fun hp => he hp.2)]
        have := ih
        rw [hr, hs] at this
        rw [this]
  | case4 c d rest hcd ih =>
    rw [show pyReplace2 (c :: d :: rest) = if c = '-' ∧ d = '-'
          then '-' :: pyReplace2 rest else c :: pyReplace2 (d :: rest) from rfl, if_neg hcd]
    obtain ⟨s, hs⟩ := pyReplace2_head d rest
    rw [hs]
    rw [show specCollapse (c :: d :: s) = if c = '-' ∧ d = '-'
          then specCollapse (d :: s) else c :: specCollapse (d :: s) from rfl, if_neg hcd]
    rw [show specCollapse (c :: d :: rest) = if c = '-' ∧ d = '-'
          then specCollapse (d :: rest) else c :: specCollapse (d :: rest) from rfl, if_neg hcd]
    rw [← hs, ih]

theorem collapseHyphens_eq_spec (l : List Char) : collapseHyphens l = specCollapse l := by
  induction l using collapseHyphens.induct with
  | case1 l h ih =>
    rw [collapseHyphens, dif_pos h, ih, specCollapse_pyReplace2]
  | case2 l h =>
    rw [collapseHyphens, dif_neg h, specCollapse_eq_self (Bool.not_eq_true _ ▸ h)]

/-! ## Lemmas: `Char.toLower` is idempotent (ASCII) -/

theorem toNat_ofNat_valid {n : Nat} (h : n.isValidChar) : (Char.ofNat n).toNat = n := by
  rw [Char.ofNat, dif_pos h]
  rfl

theorem toLower_fix_of_not_upper {c : Char}
    (h : ¬(65 ≤ c.toNat ∧ c.toNat ≤ 90)) : c.toLower = c := by
  simp only [Char.toLower]
  rw [if_neg h]

theorem toLower_toNat_not_upper (c : Char) :
    ¬(65 ≤ c.toLower.toNat ∧ c.toLower.toNat ≤ 90) := by
  by_cases h : 65 ≤ c.toNat ∧ c.toNat ≤ 90
  · have hv : (c.toNat + 32).isValidChar := Or.inl (by omega)
    simp only [Char.toLower]
    rw [if_pos h, toNat_ofNat_valid hv]
    omega
  · simp only [Char.toLower]
    rw [if_neg h]
    exact h

theorem toLower_idem (c : Char) : c.toLower.toLower = c.toLower :=
  toLower_fix_of_not_upper (toLower_toNat_not_upper c)

/-! ## Lemmas: the sanitizer -/

theorem sanitize_eq_spec (x : String) :
    sanitize_filename_component x = specSanitizeAmended x := by
  simp only [sanitize_filename_component, specSanitizeAmended, stripHyphens, sanitizeCore,
    collapseHyphens_eq_spec]

theorem map_eq_self_of_mem {α : Type} {f : α → α} :
    ∀ {l : List α}, (∀ c ∈ l, f c = c) → l.map f = l := by
  intro l
  induction l with
  | nil => intro _; rfl
  | cons c r ih =>
    intro h
    simp only [List.map_cons, h c (List.mem_cons_self c r),
      ih (fun a ha => h a (List.mem_cons_of_mem _ ha))]

theorem keepChar_ne_space {c : Char} (h : keepChar c = true) : c ≠ ' ' := by
  intro he
  subst he
  simp [keepChar, Char.isAlphanum, Char.isAlpha, Char.isUpper, Char.isLower, Char.isDigit] at h

theorem mem_sanitizeCore_good {c : Char} {l : List Char} (h : c ∈ sanitizeCore l) :
    keepChar c = true ∧ c.toLower = c := by
  unfold sanitizeCore at h
  have h1 := (stripWhile_isInfix (· == '-') _).subset h
  have h2 := mem_specCollapse h1
  have h3 := List.mem_filter.1 h2
  refine ⟨h3.2, ?_⟩
  obtain ⟨b, hb, hbc⟩ := List.mem_map.1 h3.1
  obtain ⟨a, _, hab⟩ := List.mem_map.1 hb
  subst hab
  subst hbc
  by_cases hsp : a.toLower = ' '
  · rw [hsp]
    simp [spaceToHyphen]
  · rw [show spaceToHyphen a.toLower = a.toLower from if_neg hsp, toLower_idem]

theorem sanitizeCore_fixed {l : List Char}
    (hg : ∀ c ∈ l, keepChar c = true ∧ c.toLower = c)
    (hdd : hasDD l = false)
    (hh : ∀ c r, l = c :: r → (c == '-') = false)
    (hl : ∀ c, l.getLast? = some c → (c == '-') = false) :
    sanitizeCore l = l := by
  unfold sanitizeCore
  rw [map_eq_self_of_mem (fun c hc => (hg c hc).2)]
  rw [map_eq_self_of_mem (f := spaceToHyphen)
    (fun c hc => if_neg (keepChar_ne_space (hg c hc).1))]
  rw [List.filter_eq_self.2 (fun c hc => (hg c hc).1)]
  rw [specCollapse_eq_self hdd]
  exact stripWhile_eq_self hh hl

theorem sanitizeCore_no_dd (l : List Char) : hasDD (sanitizeCore l) = false := by
  by_contra h
  have h1 : hasDD (sanitizeCore l) = true := by
    cases h2 : hasDD (sanitizeCore l)
    · exact absurd h2 h
    · rfl
  unfold sanitizeCore at h1
  have h3 := hasDD_of_infix (stripWhile_isInfix (· == '-') _) h1
  rw [hasDD_specCollapse] at h3
  cases h3

theorem specSanitizeAmended_idem (x : String) :
    specSanitizeAmended (specSanitizeAmended x) = specSanitizeAmended x := by
  by_cases h0 : x = "" ∨ x = "Unknown"
  · rw [show specSanitizeAmended x = "Unknown" from by
      unfold specSanitizeAmended; rw [if_pos h0]]
    unfold specSanitizeAmended
    rw [if_pos (Or.inr rfl)]
  · rw [show specSanitizeAmended x = if sanitizeCore x.data = [] then "Unknown"
        else String.mk (sanitizeCore x.data) from by
      unfold specSanitizeAmended; rw [if_neg h0]]
    by_cases hy : sanitizeCore x.data = []
    · rw [if_pos hy]
      unfold specSanitizeAmended
      rw [if_pos (Or.inr rfl)]
    · rw [if_neg hy]
      have hne1 : String.mk (sanitizeCore x.data) ≠ "" := by
        intro he
        exact hy (congrArg String.data he)
      have hne2 : String.mk (sanitizeCore x.data) ≠ "Unknown" := by
        intro he
        have hU : 'U' ∈ sanitizeCore x.data := by
          have : (String.mk (sanitizeCore x.data)).data = "Unknown".data := congrArg String.data he
          rw [show (String.mk (sanitizeCore x.data)).data = sanitizeCore x.data from rfl] at this
          rw [this]
          exact List.mem_cons_self _ _
        have := (mem_sanitizeCore_good hU).2
        exact absurd this (by decide)
      have hfix : sanitizeCore (String.mk (sanitizeCore x.data)).data = sanitizeCore x.data := by
        rw [show (String.mk (sanitizeCore x.data)).data = sanitizeCore x.data from rfl]
        apply sanitizeCore_fixed
        · exact fun c hc => mem_sanitizeCore_good hc
        · exact sanitizeCore_no_dd x.data
        · intro c r hcr
          unfold sanitizeCore at hcr
          exact stripWhile_head_false (p := (· == '-')) hcr
        · intro c hc
          unfold sanitizeCore at hc
          exact stripWhile_last_false (p := (· == '-')) hc
      unfold specSanitizeAmended
      rw [if_neg (by push_neg; exact ⟨hne1, hne2⟩), hfix, if_neg hy]

/-! ## Claim C4 -/

/-- C4, counterexample: the claim says an input whose processed result is
empty yields `"unknown"`, and (as part of lowercasing every input) that
`"Unknown"` would map to `"unknown"`; the code returns `"Unknown"`
(capital U) in both situations. -/
theorem c4_counterexample :
    sanitize_filename_component "!" ≠ "unknown" ∧
    sanitize_filename_component "Unknown" ≠ "unknown" ∧
    sanitize_filename_component "!" = "Unknown" ∧
    sanitize_filename_component "Unknown" = "Unknown" := by
  simp only [sanitize_eq_spec]
  refine ⟨?_, ?_, ?_, ?_⟩ <;> decide

/-- C4 (amended): sanitization lowercases, maps spaces to hyphens, drops
characters neither alphanumeric nor hyphen, collapses consecutive hyphens
to one and trims hyphens at both ends; inputs that are empty or exactly
`"Unknown"` are returned as `"Unknown"` without processing, an empty
processed result also yields `"Unknown"` (capital U, not the claimed
lowercase `"unknown"`), and the result is never empty or hyphen-only. -/
theorem c4_sanitize_spec (x : String) :
    sanitize_filename_component x = specSanitizeAmended x ∧
    sanitize_filename_component x ≠ "" ∧
    hyphenOnly (sanitize_filename_component x) = false := by
  refine ⟨sanitize_eq_spec x, ?_⟩
  rw [sanitize_eq_spec]
  unfold specSanitizeAmended
  by_cases h0 : x = "" ∨ x = "Unknown"
  · rw [if_pos h0]
    exact ⟨by decide, by decide⟩
  · rw [if_neg h0]
    by_cases hy : sanitizeCore x.data = []
    · rw [if_pos hy]
      exact ⟨by decide, by decide⟩
    · rw [if_neg hy]
      cases hcy : sanitizeCore x.data with
      | nil => exact absurd hcy hy
      | cons c r =>
        have hc : (c == '-') = false := by
          unfold sanitizeCore at hcy
          exact stripWhile_head_false (p := (· == '-')) hcy
        constructor
        · intro heq
          have hd := congrArg String.data heq
          simp at hd
        · simp [hyphenOnly, hc]

/-- C4, witness: a concrete evaluation of the amended claim. -/
theorem c4_sanitize_spec_witness :
    sanitize_filename_component "A b!" ≠ "" ∧
    hyphenOnly (sanitize_filename_component "A b!") = false :=
  ⟨(c4_sanitize_spec "A b!").2.1, (c4_sanitize_spec "A b!").2.2⟩

/-! ## Claim C6 -/

/-- C6: filename sanitization is idempotent:
`sanitize(sanitize(x)) == sanitize(x)` for every string `x`. -/
theorem c6_sanitize_idempotent (x : String) :
    sanitize_filename_component (sanitize_filename_component x) =
      sanitize_filename_component x := by
  simp only [sanitize_eq_spec, specSanitizeAmended_idem]

/-! ## Claim C8 -/

theorem extract_cv_core (d : List Char) :
    (splitNl (joinNl ((splitNl d).filter keepLine))).filter keepLine =
      (splitNl d).filter keepLine := by
  cases hk : (splitNl d).filter keepLine with
  | nil => rfl
  | cons y ys =>
    have hnn : ∀ x ∈ (splitNl d).filter keepLine, '\n' ∉ x := fun x hx =>
      mem_splitNl_no_nl d x (List.mem_filter.1 hx).1
    rw [← hk]
    rw [splitNl_joinNl _ (by rw [hk]; simp) hnn]
    exact List.filter_eq_self.2 (fun a ha => (List.mem_filter.1 ha).2)

/-- C8: CV cleaning is idempotent, and it keeps exactly the lines whose
stripped form is non-blank and is neither a markup directive nor a
comment, as a sublist of the input lines (original order preserved). -/
theorem c8_cv_cleaning (s : String) :
    extract_cv_text (extract_cv_text s) = extract_cv_text s ∧
    ((splitNl s.data).filter keepLine).Sublist (splitNl s.data) ∧
    (∀ l ∈ splitNl s.data, keepLine l = true → l ∈ (splitNl s.data).filter keepLine) ∧
    extract_cv_text s = String.mk (joinNl ((splitNl s.data).filter keepLine)) := by
  refine ⟨?_, List.filter_sublist _, fun l hl hk => List.mem_filter.2 ⟨hl, hk⟩, rfl⟩
  have h1 : extract_cv_text (extract_cv_text s) =
      String.mk (joinNl ((splitNl (joinNl ((splitNl s.data).filter keepLine))).filter keepLine)) :=
    rfl
  rw [h1, extract_cv_core]
  rfl

/-- C8, witness: the cleaning applied to a concrete CV fragment keeps the
content line. -/
theorem c8_cv_cleaning_witness :
    ['J', 'a', 'n', 'e'] ∈ (splitNl ("Jane\n%x").data).filter keepLine :=
  (c8_cv_cleaning "Jane\n%x").2.2.1 ['J', 'a', 'n', 'e'] (by decide) (by decide)

/-! ## Claim C10 -/

theorem clean_lines_good (s : String) :
    ∀ l ∈ cleanedLinesOf s, l ≠ [] ∧ pyStrip l = l ∧ '\n' ∉ l := by
  intro l hl
  obtain ⟨a, ha, hal⟩ := List.mem_map.1 hl
  have h1 := List.mem_filter.1 ha
  subst hal
  refine ⟨?_, ?_, ?_⟩
  · intro he
    rw [he] at h1
    simp at h1
  · exact stripWhile_idem isPySpace a
  · intro hmem
    exact mem_splitNl_no_nl s.data a h1.1 ((stripWhile_isInfix isPySpace a).subset hmem)

theorem clean_lines_of_good (xs : List (List Char))
    (hnn : ∀ x ∈ xs, '\n' ∉ x)
    (hgood : ∀ x ∈ xs, x ≠ [] ∧ pyStrip x = x) :
    ((splitNl (joinNl xs)).filter (fun l => !(pyStrip l).isEmpty)).map pyStrip = xs := by
  cases xs with
  | nil => rfl
  | cons y ys =>
    rw [splitNl_joinNl _ (by simp) hnn]
    rw [List.filter_eq_self.2 (fun a ha => by
      rw [(hgood a ha).2]
      simp [List.isEmpty_iff, (hgood a ha).1])]
    exact map_eq_self_of_mem (fun a ha => (hgood a ha).2)

/-- C10: the whitespace-cleaning pass on extracted page text is
idempotent, and every line it produces is non-empty and has no leading or
trailing whitespace (it is fixed under stripping). -/
theorem c10_clean_text (s : String) :
    clean_text (clean_text s) = clean_text s ∧
    (∀ l ∈ cleanedLinesOf s, l ≠ [] ∧ pyStrip l = l) ∧
    clean_text s = String.mk (joinNl (cleanedLinesOf s)) := by
  refine ⟨?_, fun l hl => ⟨(clean_lines_good s l hl).1, (clean_lines_good s l hl).2.1⟩, rfl⟩
  have h1 : clean_text (clean_text s) =
      String.mk (joinNl (((splitNl (joinNl (cleanedLinesOf s))).filter
        (fun l => !(pyStrip l).isEmpty)).map pyStrip)) := rfl
  rw [h1, clean_lines_of_good (cleanedLinesOf s)
    (fun x hx => (clean_lines_good s x hx).2.2)
    (fun x hx => ⟨(clean_lines_good s x hx).1, (clean_lines_good s x hx).2.1⟩)]
  rfl

/-- C10, witness: a concrete evaluation of the line properties. -/
theorem c10_clean_text_witness :
    ['a'] ≠ ([] : List Char) ∧ pyStrip ['a'] = ['a'] :=
  (c10_clean_text "  a  \n\n").2.1 ['a'] (by decide)

/-! ## Claim C9 -/

/-- C9: metadata extraction never raises to its caller (the embedding is a
total function): a failed call, or a response that does not parse as JSON
after code-fence stripping, yields `("Unknown", "Unknown")`; a missing
`company` or `position` key individually defaults to `"Unknown"`. -/
theorem c9_job_info (parse : String → Option JobInfoObj) (raw : String) (o : JobInfoObj) :
    extract_job_info none parse = ("Unknown", "Unknown") ∧
    (parse (String.mk (stripFences raw.data)) = none →
      extract_job_info (some raw) parse = ("Unknown", "Unknown")) ∧
    (parse (String.mk (stripFences raw.data)) = some o →
      extract_job_info (some raw) parse =
        (o.company.getD "Unknown", o.position.getD "Unknown") ∧
      (o.company = none → (extract_job_info (some raw) parse).1 = "Unknown") ∧
      (o.position = none → (extract_job_info (some raw) parse).2 = "Unknown")) := by
  refine ⟨rfl, ?_, ?_⟩
  · intro h
    simp only [extract_job_info, h]
  · intro h
    simp only [extract_job_info, h]
    refine ⟨trivial, ?_, ?_⟩
    · intro hc
      simp [hc]
    · intro hp
      simp [hp]

/-- C9, witness: concrete parse outcomes. -/
theorem c9_job_info_witness :
    extract_job_info none (fun _ => none) = ("Unknown", "Unknown") ∧
    extract_job_info (some "x") (fun _ => none) = ("Unknown", "Unknown") ∧
    (extract_job_info (some "x")
      (fun _ => some ⟨none, some "Engineer"⟩)).1 = "Unknown" :=
  ⟨(c9_job_info (fun _ => none) "x" ⟨none, some "Engineer"⟩).1,
   (c9_job_info (fun _ => none) "x" ⟨none, some "Engineer"⟩).2.1 rfl,
   ((c9_job_info (fun _ => some ⟨none, some "Engineer"⟩) "x"
      ⟨none, some "Engineer"⟩).2.2 rfl).2.1 rfl⟩

/-! ## Claim C5 -/

theorem firstMatch_at : ∀ (L : List SAttr) (f : SAttr → Option String)
    (i : Fin L.length) (t : String),
    (∀ j : Fin L.length, j.val < i.val → f (L.get j) = none) →
    f (L.get i) = some t → firstMatch L f = some t := by
  intro L
  induction L with
  | nil =>
    intro f i
    exact absurd i.2 (by simp)
  | cons a rest ih =>
    intro f i t hb hi
    rcases i with ⟨iv, hlt⟩
    cases iv with
    | zero =>
      unfold firstMatch
      rw [show f ((a :: rest).get ⟨0, hlt⟩) = f a from rfl] at hi
      rw [hi]
    | succ k =>
      have h0 : f a = none := hb ⟨0, by simp⟩ (Nat.succ_pos k)
      unfold firstMatch
      rw [h0]
      apply ih f ⟨k, by simpa using hlt⟩ t
      · intro j hj
        have hjs := hb ⟨j.val + 1, Nat.succ_lt_succ j.2⟩
          (by simpa using Nat.succ_lt_succ hj)
        simpa using hjs
      · simpa using hi

/-- C5, counterexample: the claim says the first matching selector's text
is the one extracted; with an empty-text `job-description`-class element
(Python `if not content:`), the extractor instead falls through to the
body, even though a `main`-role element exists. -/
theorem c5_counterexample :
    soupA.find (SAttr.cls "job-description") = some "" ∧
    soupA.find (SAttr.role "main") = some "MAINTEXT" ∧
    chooseContent soupA = "BODYTEXT" ∧
    chooseContent soupA ≠ "" := by
  refine ⟨by decide, by decide, by decide, by decide⟩

/-- C5 (amended): the selector chain is strictly ordered and first-match
wins (a selector is consulted only when all earlier selectors found no
element), and for every document with both a `job-description`-class
element and a `main`-role element, the class-based element's text is the
one extracted, provided that text is non-empty. -/
theorem c5_selector_order :
    (∀ (f : SAttr → Option String) (i : Fin selectors.length) (t : String),
      (∀ j : Fin selectors.length, j.val < i.val → f (selectors.get j) = none) →
      f (selectors.get i) = some t → firstMatch selectors f = some t) ∧
    (∀ (s : Soup) (t u : String), s.find (SAttr.cls "job-description") = some t →
      s.find (SAttr.role "main") = some u → t ≠ "" → chooseContent s = t) := by
  constructor
  · exact fun f i t hb hi => firstMatch_at selectors f i t hb hi
  · intro s t u hjd _ hne
    unfold chooseContent
    have h1 : firstMatch selectors s.find = some t := by
      rw [show firstMatch selectors s.find =
        (match s.find (SAttr.cls "job-description") with
         | some t => some t
         | none => firstMatch (selectors.drop 1) s.find) from rfl]
      rw [hjd]
    rw [h1]
    exact if_neg hne

/-- C5, witness: concrete evaluations of both parts of the amended claim. -/
theorem c5_selector_order_witness :
    firstMatch selectors soupB.find = some "JD TEXT" ∧ chooseContent soupB = "JD TEXT" :=
  ⟨c5_selector_order.1 soupB.find ⟨0, by decide⟩ "JD TEXT"
      (fun j hj => absurd hj (Nat.not_lt_zero _)) (by decide),
   c5_selector_order.2 soupB "JD TEXT" "MAINTEXT" (by decide) (by decide) (by decide)⟩

/-! ## Claim C7 -/

/-- C7: content extraction is a total function of the parsed document
(never raises), and when no container selector matches it falls back, in
order, to the `main` tag, the `article` tag, the body, and finally the
whole document's text. -/
theorem c7_fallback (s : Soup) (h : firstMatch selectors s.find = none) :
    (∀ t, s.mainTag = some t → chooseContent s = t) ∧
    (s.mainTag = none → ∀ t, s.articleTag = some t → chooseContent s = t) ∧
    (s.mainTag = none → s.articleTag = none → ∀ t, s.bodyTag = some t →
      chooseContent s = t) ∧
    (s.mainTag = none → s.articleTag = none → s.bodyTag = none →
      chooseContent s = s.docText) := by
  have hc : chooseContent s = fallbackContent s := by
    unfold chooseContent
    rw [h]
  refine ⟨?_, ?_, ?_, ?_⟩
  · intro t ht
    rw [hc]
    unfold fallbackContent
    rw [ht]
  · intro hm t ht
    rw [hc]
    unfold fallbackContent
    rw [hm, ht]
  · intro hm ha t ht
    rw [hc]
    unfold fallbackContent
    rw [hm, ha, ht]
  · intro hm ha hb
    rw [hc]
    unfold fallbackContent
    rw [hm, ha, hb]

/-- C7, witness: with no selector match and no `main`/`article` tag, the
body's text is extracted. -/
theorem c7_fallback_witness : chooseContent soupC = "BODY" :=
  (c7_fallback soupC (by decide)).2.2.1 rfl rfl "BODY" rfl

/-! ## Lemmas: the batch loop -/

theorem batchFold_eq (mtb : Bool) (date : String) :
    ∀ (items : List BatchItem) (r : LoopResult),
      items.foldl (batchStep mtb date) r =
        ⟨r.generated ++ gensOf mtb date items,
         r.toMove ++ movesOf mtb date items,
         r.failLog ++ failsOf mtb date items⟩ := by
  intro items
  induction items with
  | nil =>
    intro r
    simp [gensOf, movesOf, failsOf]
  | cons it items ih =>
    intro r
    rw [List.foldl_cons, ih]
    unfold batchStep gensOf movesOf failsOf
    cases hp : processItem mtb date it with
    | ok p =>
      rcases p with ⟨out, nf⟩
      cases nf with
      | none =>
        simp [hp, List.filterMap_cons, List.append_assoc]
      | some f =>
        simp [hp, List.filterMap_cons, List.append_assoc]
    | error e =>
      simp [hp, List.filterMap_cons, List.append_assoc]

theorem batchLoop_eq (mtb : Bool) (date : String) (items : List BatchItem) :
    batchLoop mtb date items =
      ⟨gensOf mtb date items, movesOf mtb date items, failsOf mtb date items⟩ := by
  unfold batchLoop
  rw [batchFold_eq]
  simp

theorem gens_fails_length (mtb : Bool) (date : String) :
    ∀ (items : List BatchItem),
      (gensOf mtb date items).length + (failsOf mtb date items).length = items.length := by
  intro items
  induction items with
  | nil => rfl
  | cons it items ih =>
    unfold gensOf failsOf at ih ⊢
    cases hp : processItem mtb date it with
    | ok p =>
      simp only [List.filterMap_cons, hp, List.length_cons]
      omega
    | error e =>
      simp only [List.filterMap_cons, hp, List.length_cons]
      omega

/-! ## Claim C1 -/

/-- C1: the batch loop completes a full pass: every item contributes
exactly one outcome (success or recorded failure), the failure messages
are recorded in order of occurrence, and the aggregate report shows
`N - K` successes out of `N` items when `K` items fail. -/
theorem c1_batch_isolation (mtb : Bool) (date : String) (items : List BatchItem) :
    (batchLoop mtb date items).generated = gensOf mtb date items ∧
    (batchLoop mtb date items).failLog = failsOf mtb date items ∧
    (gensOf mtb date items).length + (failsOf mtb date items).length = items.length ∧
    batchReport mtb date items =
      (items.length - (failsOf mtb date items).length, items.length) := by
  refine ⟨by rw [batchLoop_eq], by rw [batchLoop_eq], gens_fails_length mtb date items, ?_⟩
  have h := gens_fails_length mtb date items
  have hg : batchReport mtb date items = ((gensOf mtb date items).length, items.length) := by
    unfold batchReport
    rw [batchLoop_eq]
  rw [hg]
  simp only [Prod.mk.injEq]
  exact ⟨by omega, trivial⟩

/-! ## Claim C2 -/

theorem pySplitext_append (cs : List Char) :
    (pySplitext cs).1 ++ (pySplitext cs).2 = cs := by
  unfold pySplitext
  cases lastDotIdx cs with
  | none => simp
  | some i =>
    by_cases h : (cs.take i).all (· == '.')
    · simp [h]
    · simp [h, List.take_append_drop]

theorem addSuffix_length (nf t : String) :
    (addSuffix nf t).length = nf.length + 1 + t.length := by
  have hbe := congrArg List.length (pySplitext_append nf.data)
  rw [List.length_append] at hbe
  show (String.mk (pySplitext nf.data).1 ++ "_" ++ t ++
      String.mk (pySplitext nf.data).2).length = nf.length + 1 + t.length
  rw [String.length_append, String.length_append, String.length_append]
  rw [show (String.mk (pySplitext nf.data).1).length = (pySplitext nf.data).1.length from rfl]
  rw [show (String.mk (pySplitext nf.data).2).length = (pySplitext nf.data).2.length from rfl]
  rw [show ("_" : String).length = 1 from rfl]
  rw [show nf.length = nf.data.length from rfl]
  omega

theorem addSuffix_ne (nf t : String) : nf ≠ addSuffix nf t := by
  intro he
  have h := congrArg String.length he
  rw [addSuffix_length] at h
  omega

/-- C2, counterexample: two successful same-key items with the base name
already archived (or three same-key items in one second) receive the same
time-suffixed destination: the second move's destination equals the
first's, and it replaces an existing archive file. -/
theorem c2_counterexample :
    (movePhase ["a.txt"] [("s1", "a.txt"), ("s2", "a.txt")] ["120000", "120000"]).performed =
      [("s1", "a_120000.txt"), ("s2", "a_120000.txt")] ∧
    (movePhase ["a.txt"] [("s1", "a.txt"), ("s2", "a.txt")] ["120000", "120000"]).overwrote =
      true := by
  refine ⟨by decide, by decide⟩

/-- C2 (amended): for two successfully processed items whose metadata
sanitizes to the same archive name, the collision policy yields distinct
destinations and overwrites nothing, provided neither the base name nor
the second move's time-suffixed name is already present in the archive
before the move phase. -/
theorem c2_collision (fs0 : List String) (s1 s2 nf t1 t2 : String)
    (h1 : fs0.contains nf = false)
    (h2 : fs0.contains (addSuffix nf t2) = false) :
    (movePhase fs0 [(s1, nf), (s2, nf)] [t1, t2]).performed =
      [(s1, nf), (s2, addSuffix nf t2)] ∧
    nf ≠ addSuffix nf t2 ∧
    nf ∈ (movePhase fs0 [(s1, nf), (s2, nf)] [t1, t2]).fs ∧
    addSuffix nf t2 ∈ (movePhase fs0 [(s1, nf), (s2, nf)] [t1, t2]).fs ∧
    (movePhase fs0 [(s1, nf), (s2, nf)] [t1, t2]).overwrote = false := by
  have hc2 : (fs0 ++ [nf]).contains nf = true := by
    rw [List.contains_eq_any_beq, List.any_append]
    simp
  have hc3 : (fs0 ++ [nf]).contains (addSuffix nf t2) = false := by
    rw [List.contains_eq_any_beq, List.any_append]
    rw [List.contains_eq_any_beq] at h2
    simp [h2, beq_eq_false_iff_ne.2 (addSuffix_ne nf t2).symm]
  simp only [movePhase, h1, hc2, hc3, if_false, if_true, Bool.false_eq_true,
    List.headD_cons, List.tail_cons, Bool.or_false]
  refine ⟨?_, addSuffix_ne nf t2, ?_, ?_, ?_⟩ <;> simp

/-- C2, witness: a concrete collision pair against an empty archive. -/
theorem c2_collision_witness :
    (movePhase [] [("s1", "a.txt"), ("s2", "a.txt")] ["111111", "120000"]).performed =
      [("s1", "a.txt"), ("s2", addSuffix "a.txt" "120000")] ∧
    (movePhase [] [("s1", "a.txt"), ("s2", "a.txt")] ["111111", "120000"]).overwrote = false :=
  ⟨(c2_collision [] "s1" "s2" "a.txt" "111111" "120000" (by decide) (by decide)).1,
   (c2_collision [] "s1" "s2" "a.txt" "111111" "120000" (by decide) (by decide)).2.2.2.2⟩

/-! ## Claim C3 -/

theorem foldl_append_map {α β : Type} (g : α → β) :
    ∀ (l : List α) (acc : List β),
      l.foldl (fun a it => a ++ [g it]) acc = acc ++ l.map g := by
  intro l
  induction l with
  | nil => intro acc; simp
  | cons x xs ih =>
    intro acc
    rw [List.foldl_cons, ih]
    simp

theorem itemEvents_eq_map (mtb : Bool) (date : String) (items : List BatchItem) :
    itemEvents mtb date items =
      items.map (fun it => BEvent.gen it.path (isOkB (processItem mtb date it))) := by
  unfold itemEvents
  rw [foldl_append_map]
  simp

theorem movePhase_performed_src :
    ∀ (moves : List (String × String)) (fs times : List String) (src dest : String),
      (src, dest) ∈ (movePhase fs moves times).performed → ∃ nf, (src, nf) ∈ moves := by
  intro moves
  induction moves with
  | nil =>
    intro fs times src dest h
    simp [movePhase] at h
  | cons m rest ih =>
    rcases m with ⟨s0, nf0⟩
    intro fs times src dest h
    simp only [movePhase] at h
    rcases List.mem_cons.1 h with h1 | h1
    · have hs : src = s0 := congrArg Prod.fst h1
      exact ⟨nf0, by rw [hs]; exact List.mem_cons_self _ _⟩
    · obtain ⟨nf, hnf⟩ := ih _ _ src dest h1
      exact ⟨nf, List.mem_cons_of_mem _ hnf⟩

/-- C3: the batch trace is the full generation pass (one event per input
file, none of them a move) followed by the move phase, and every archival
move's source file belongs to an item whose read, generation and write
all succeeded. -/
theorem c3_archive_after_pass (mtb : Bool) (date : String) (fs0 times : List String)
    (items : List BatchItem) :
    batchTrace mtb date fs0 times items =
      itemEvents mtb date items ++
        (movePhase fs0 (batchLoop mtb date items).toMove times).performed.map
          (fun p => BEvent.move p.1 p.2) ∧
    (itemEvents mtb date items).length = items.length ∧
    (∀ e ∈ itemEvents mtb date items, isMoveEvent e = false) ∧
    (∀ src dest, BEvent.move src dest ∈ batchTrace mtb date fs0 times items →
      ∃ it, it ∈ items ∧ it.path = src ∧ isOkB (processItem mtb date it) = true) := by
  refine ⟨rfl, ?_, ?_, ?_⟩
  · rw [itemEvents_eq_map]
    simp
  · intro e he
    rw [itemEvents_eq_map] at he
    obtain ⟨it, _, hit⟩ := List.mem_map.1 he
    rw [← hit]
    rfl
  · intro src dest h
    unfold batchTrace at h
    rcases List.mem_append.1 h with h1 | h1
    · rw [itemEvents_eq_map] at h1
      obtain ⟨it, _, he⟩ := List.mem_map.1 h1
      exact absurd he (by simp)
    · obtain ⟨p, hp, he⟩ := List.mem_map.1 h1
      rcases p with ⟨ps, pd⟩
      injection he with hs hd
      subst hs
      subst hd
      obtain ⟨nf, hnf⟩ := movePhase_performed_src _ _ _ ps pd hp
      have hm : (batchLoop mtb date items).toMove = movesOf mtb date items := by
        rw [batchLoop_eq]
      rw [hm] at hnf
      obtain ⟨it, hit, hfit⟩ := List.mem_filterMap.1 hnf
      cases hpi : processItem mtb date it with
      | ok p2 =>
        rcases p2 with ⟨out, onf⟩
        cases onf with
        | some f =>
          rw [hpi] at hfit
          simp only [Option.some.injEq, Prod.mk.injEq] at hfit
          exact ⟨it, hit, hfit.1, by rw [hpi]; rfl⟩
        | none =>
          rw [hpi] at hfit
          simp at hfit
      | error e =>
        rw [hpi] at hfit
        simp at hfit

/-- C3, witness: in a concrete run with archival enabled, the moved
source belongs to the (successful) item. -/
theorem c3_archive_after_pass_witness :
    ∃ it, it ∈ [okItem] ∧ it.path = "job1.txt" ∧
      isOkB (processItem true "20260101" it) = true :=
  (c3_archive_after_pass true "20260101" [] ["120000"] [okItem]).2.2.2
    "job1.txt" "Unknown-Unknown-20260101.txt" (by decide)

end CLG
